import Mathlib

/-!
Verification development for the TRLO odometry pipeline
(`src/trlo/include/trlo/odom.h`).

The repository ships only interface headers: `odom.h` declares the
pipeline's operations (`pushSubmapIndices`, `updateKeyframes`,
`getSubmapKeyframes`, `integrateIMU`, `setAdaptiveParams`, ...) and its
state (`trajectory`, `keyframes`, `imu_bias`, `submap_kf_idx_prev`,
`para_tz` / `para_q`, configuration parameters), but the method bodies are
not part of the sources.  Except for the in-header member initializers
(`para_tz[1] = {0}`, `para_tz_pre = 0`, `para_q[4] = {0, 0, 0, 1}`), every
operation below is therefore modelled from the specification's description
of the corresponding declared method, using `ℚ` for the C++ floating-point
scalars.
-/

namespace TRLO

/-- A 3-vector with rational coordinates, modelling `Eigen::Vector3f` /
the header's `XYZd` struct. -/
structure Vec3 where
  x : ℚ
  y : ℚ
  z : ℚ
  deriving DecidableEq, Repr

/-- A quaternion with rational coordinates, modelling `Eigen::Quaternionf`
(w is the scalar part). -/
structure Quat where
  w : ℚ
  x : ℚ
  y : ℚ
  z : ℚ
  deriving DecidableEq, Repr

/-- The identity quaternion (no rotation). -/
def Quat.one : Quat := ⟨1, 0, 0, 0⟩

/-- Hamilton product of two quaternions. -/
def Quat.mul (p q : Quat) : Quat :=
  ⟨p.w * q.w - p.x * q.x - p.y * q.y - p.z * q.z,
   p.w * q.x + p.x * q.w + p.y * q.z - p.z * q.y,
   p.w * q.y - p.x * q.z + p.y * q.w + p.z * q.x,
   p.w * q.z + p.x * q.y - p.y * q.x + p.z * q.w⟩

/-- A pose: position plus orientation, as in the header's
`std::pair<Eigen::Vector3f, Eigen::Quaternionf>` trajectory entries. -/
structure Pose where
  pos : Vec3
  ori : Quat
  deriving DecidableEq, Repr

/-- A point cloud, modelling `pcl::PointCloud<PointType>` as the list of
its points. -/
abbrev PointCloud := List Vec3

/-! ## C1: `pushSubmapIndices` — strict k-smallest selection

Modelled from the spec: `pushSubmapIndices(distances, k, frames)` performs
a strict k-smallest selection over a distance array with deterministic
tie-breaking: equal distances are broken by ascending original index,
returning exactly `min(k, n)` indices.  The header declares
`void pushSubmapIndices(std::vector<float> dists, int k, std::vector<int> frames)`;
the body is not in the sources. -/

/-- The selection order on (original index, distance) pairs: smaller
distance first, ties broken by ascending original index. -/
def distIdxLe (p q : ℕ × ℚ) : Prop :=
  p.2 < q.2 ∨ (p.2 = q.2 ∧ p.1 ≤ q.1)

instance : DecidableRel distIdxLe := fun p q => by
  unfold distIdxLe; infer_instance

instance : IsTotal (ℕ × ℚ) distIdxLe where
  total p q := by
    unfold distIdxLe
    rcases lt_trichotomy p.2 q.2 with h | h | h
    · exact Or.inl (Or.inl h)
    · rcases Nat.le_total p.1 q.1 with h' | h'
      · exact Or.inl (Or.inr ⟨h, h'⟩)
      · exact Or.inr (Or.inr ⟨h.symm, h'⟩)
    · exact Or.inr (Or.inl h)

instance : IsTrans (ℕ × ℚ) distIdxLe where
  trans p q r hpq hqr := by
    unfold distIdxLe at *
    rcases hpq with h1 | ⟨h1, h1'⟩
    · rcases hqr with h2 | ⟨h2, _⟩
      · exact Or.inl (h1.trans h2)
      · exact Or.inl (h2 ▸ h1)
    · rcases hqr with h2 | ⟨h2, h2'⟩
      · exact Or.inl (h1 ▸ h2)
      · exact Or.inr ⟨h1.trans h2, h1'.trans h2'⟩

/-- Modelled from the spec: the (index, distance) pairs sorted by
distance, ties broken by ascending original index. -/
def sortByDist (dists : List ℚ) : List (ℕ × ℚ) :=
  dists.enum.insertionSort distIdxLe

/-- The pairs selected by the k-smallest selection. -/
def selPairs (dists : List ℚ) (k : ℕ) : List (ℕ × ℚ) :=
  (sortByDist dists).take k

/-- The pairs rejected by the k-smallest selection. -/
def restPairs (dists : List ℚ) (k : ℕ) : List (ℕ × ℚ) :=
  (sortByDist dists).drop k

/-- Modelled from the spec: `pushSubmapIndices` selects the `min(k, n)`
positions with the smallest distances (ties broken by ascending position)
and returns the corresponding entries of `frames`. -/
def pushSubmapIndices (dists : List ℚ) (k : ℕ) (frames : List ℕ) : List ℕ :=
  (selPairs dists k).map (fun p => frames.getD p.1 p.1)

theorem selPairs_append_restPairs (dists : List ℚ) (k : ℕ) :
    selPairs dists k ++ restPairs dists k = sortByDist dists :=
  List.take_append_drop k (sortByDist dists)

theorem sortByDist_perm (dists : List ℚ) :
    (sortByDist dists).Perm dists.enum :=
  List.perm_insertionSort distIdxLe dists.enum

theorem sortByDist_sorted (dists : List ℚ) :
    (sortByDist dists).Sorted distIdxLe :=
  List.sorted_insertionSort distIdxLe dists.enum

theorem sortByDist_nodup_fst (dists : List ℚ) :
    ((sortByDist dists).map Prod.fst).Nodup :=
  (((sortByDist_perm dists).map Prod.fst).nodup_iff).mpr
    (List.nodup_enum_map_fst dists)

/-- C1: For every distance array `dists`, every `k`, and every index array
`frames`, `pushSubmapIndices` selects exactly `min(k, n)` indices
corresponding to the `k` smallest distances, with equal distances broken
by ascending original index (every selected (index, distance) pair
strictly lexicographically precedes every rejected one); in particular for
distances `[2, 1, 1, 3]` and `k = 2` it selects indices `{1, 2}`. -/
theorem pushSubmapIndices_kSmallest (dists : List ℚ) (k : ℕ) (frames : List ℕ) :
    (pushSubmapIndices dists k frames).length = min k dists.length ∧
    (selPairs dists k ++ restPairs dists k).Perm dists.enum ∧
    (∀ p ∈ selPairs dists k, ∀ q ∈ restPairs dists k,
      p.2 < q.2 ∨ (p.2 = q.2 ∧ p.1 < q.1)) ∧
    pushSubmapIndices [2, 1, 1, 3] 2 [0, 1, 2, 3] = [1, 2] := by
  refine ⟨?_, ?_, ?_, by decide⟩
  · have hlen : (sortByDist dists).length = dists.length :=
      (sortByDist_perm dists).length_eq.trans (List.enum_length)
    simp [pushSubmapIndices, selPairs, hlen]
  · rw [selPairs_append_restPairs]; exact sortByDist_perm dists
  · intro p hp q hq
    have hsorted := sortByDist_sorted dists
    have hrel : distIdxLe p q := by
      have := List.pairwise_append.mp
        ((selPairs_append_restPairs dists k) ▸ hsorted)
      exact this.2.2 p hp q hq
    have hne : p.1 ≠ q.1 := by
      have hnodup := sortByDist_nodup_fst dists
      rw [← selPairs_append_restPairs dists k, List.map_append,
        List.nodup_append] at hnodup
      intro heq
      exact hnodup.2.2 (List.mem_map_of_mem Prod.fst hp)
        (heq ▸ List.mem_map_of_mem Prod.fst hq)
    rcases hrel with h | ⟨h, h'⟩
    · exact Or.inl h
    · exact Or.inr ⟨h, lt_of_le_of_ne h' hne⟩

/-! ## C3: `updateKeyframes` — threshold-gated keyframe creation

Modelled from the spec: `updateKeyframes()` computes translation and
rotation deltas between the newly estimated pose and the nearest existing
keyframe; if either delta meets or exceeds its configured threshold
(`keyframe_thresh_dist_`, `keyframe_thresh_rot_` in the header), commits a
new keyframe appended to the ordered keyframe sequence and marks the
submap stale.  The header declares `void updateKeyframes()`; the body is
not in the sources.  Translation deltas are squared distances compared
against a squared threshold (order-equivalent, keeps scalars in `ℚ`), and
the rotation delta is a rational monotone proxy for the rotation angle. -/

/-- Absolute value on `ℚ`, kept kernel-reducible for concrete inputs. -/
def qabs (x : ℚ) : ℚ := if x < 0 then -x else x

/-- Squared Euclidean distance between two positions. -/
def dist2 (a b : Vec3) : ℚ :=
  (a.x - b.x) * (a.x - b.x) + (a.y - b.y) * (a.y - b.y) + (a.z - b.z) * (a.z - b.z)

/-- Rotation delta between two orientations: `1 - |⟨p, q⟩|`, a rational
monotone proxy for the rotation angle between unit quaternions. -/
def rotDist (p q : Quat) : ℚ :=
  1 - qabs (p.w * q.w + p.x * q.x + p.y * q.y + p.z * q.z)

/-- A keyframe: pose, downsampled cloud and per-point normals, as in the
header's `keyframes` / `keyframe_normals` members. -/
structure Keyframe where
  pose : Pose
  cloud : PointCloud
  normals : List Vec3
  deriving DecidableEq

/-- One argmin step of the nearest-keyframe scan: keep the closer of the
running best and the next keyframe (the earlier one on ties). -/
def closerTo (p : Vec3) (best kf : Keyframe) : Keyframe :=
  if dist2 kf.pose.pos p < dist2 best.pose.pos p then kf else best

/-- Modelled from the spec: the existing keyframe nearest (by Euclidean
distance) to a query position; `none` when there are no keyframes. -/
def nearestKeyframe (kfs : List Keyframe) (p : Vec3) : Option Keyframe :=
  match kfs with
  | [] => none
  | kf :: rest => some (rest.foldl (closerTo p) kf)

theorem foldl_closerTo_min (p : Vec3) (rest : List Keyframe) (init : Keyframe) :
    dist2 (rest.foldl (closerTo p) init).pose.pos p ≤ dist2 init.pose.pos p ∧
    ∀ kf ∈ rest, dist2 (rest.foldl (closerTo p) init).pose.pos p ≤ dist2 kf.pose.pos p := by
  induction rest generalizing init with
  | nil => exact ⟨le_refl _, by intro kf h; cases h⟩
  | cons hd tl ih =>
    constructor
    · refine le_trans (ih (closerTo p init hd)).1 ?_
      unfold closerTo
      split
      · exact le_of_lt (by assumption)
      · exact le_refl _
    · intro kf hkf
      rcases List.mem_cons.mp hkf with rfl | hmem
      · refine le_trans (ih (closerTo p init kf)).1 ?_
        unfold closerTo
        split
        · exact le_refl _
        · exact le_of_not_lt (by assumption)
      · exact (ih (closerTo p init hd)).2 kf hmem

theorem nearestKeyframe_min (kfs : List Keyframe) (p : Vec3) (nk : Keyframe)
    (h : nearestKeyframe kfs p = some nk) :
    ∀ kf ∈ kfs, dist2 nk.pose.pos p ≤ dist2 kf.pose.pos p := by
  match kfs with
  | [] => cases h
  | hd :: tl =>
    simp only [nearestKeyframe, Option.some.injEq] at h
    subst h
    intro kf hkf
    rcases List.mem_cons.mp hkf with rfl | hmem
    · exact (foldl_closerTo_min p tl kf).1
    · exact (foldl_closerTo_min p tl hd).2 kf hmem

/-- Modelled from the spec: `updateKeyframes()` decision — append a new
keyframe exactly when the translation delta to the nearest keyframe meets
or exceeds the (squared) distance threshold or the rotation delta meets or
exceeds the rotation threshold.  The returned flag marks the submap stale
(a keyframe was created). -/
def updateKeyframes (kfs : List Keyframe) (p : Pose) (cloud : PointCloud)
    (normals : List Vec3) (thresh_dist2 thresh_rot : ℚ) : List Keyframe × Bool :=
  match nearestKeyframe kfs p.pos with
  | none => (kfs ++ [⟨p, cloud, normals⟩], true)
  | some nk =>
    if thresh_dist2 ≤ dist2 nk.pose.pos p.pos ∨ thresh_rot ≤ rotDist nk.pose.ori p.ori then
      (kfs ++ [⟨p, cloud, normals⟩], true)
    else (kfs, false)

/-- C3: a new keyframe is created if and only if the translation delta to
the nearest existing keyframe meets or exceeds the distance threshold or
the rotation delta meets or exceeds the rotation threshold; the nearest
keyframe is a true distance minimizer; on creation the new keyframe is
appended (existing ones untouched); when both deltas are strictly below
their thresholds the keyframe list is returned unchanged. -/
theorem updateKeyframes_spec (kfs : List Keyframe) (p : Pose) (cloud : PointCloud)
    (normals : List Vec3) (thd2 thr : ℚ) (nk : Keyframe)
    (h : nearestKeyframe kfs p.pos = some nk) :
    (∀ kf ∈ kfs, dist2 nk.pose.pos p.pos ≤ dist2 kf.pose.pos p.pos) ∧
    ((updateKeyframes kfs p cloud normals thd2 thr).2 = true ↔
      thd2 ≤ dist2 nk.pose.pos p.pos ∨ thr ≤ rotDist nk.pose.ori p.ori) ∧
    ((updateKeyframes kfs p cloud normals thd2 thr).2 = true →
      (updateKeyframes kfs p cloud normals thd2 thr).1 = kfs ++ [⟨p, cloud, normals⟩]) ∧
    (dist2 nk.pose.pos p.pos < thd2 ∧ rotDist nk.pose.ori p.ori < thr →
      (updateKeyframes kfs p cloud normals thd2 thr).1 = kfs) := by
  have e : updateKeyframes kfs p cloud normals thd2 thr =
      if thd2 ≤ dist2 nk.pose.pos p.pos ∨ thr ≤ rotDist nk.pose.ori p.ori then
        (kfs ++ [⟨p, cloud, normals⟩], true)
      else (kfs, false) := by
    unfold updateKeyframes; rw [h]
  refine ⟨nearestKeyframe_min kfs p.pos nk h, ?_, ?_, ?_⟩ <;> rw [e]
  · by_cases hc : thd2 ≤ dist2 nk.pose.pos p.pos ∨ thr ≤ rotDist nk.pose.ori p.ori
    · rw [if_pos hc]; simpa using hc
    · rw [if_neg hc]; simpa using hc
  · by_cases hc : thd2 ≤ dist2 nk.pose.pos p.pos ∨ thr ≤ rotDist nk.pose.ori p.ori
    · rw [if_pos hc]; intro _; rfl
    · rw [if_neg hc]; intro hff; exact absurd hff (by simp)
  · intro ⟨h1, h2⟩
    have hc : ¬(thd2 ≤ dist2 nk.pose.pos p.pos ∨ thr ≤ rotDist nk.pose.ori p.ori) := by
      rintro (hge | hge)
      · exact absurd hge (not_le_of_lt h1)
      · exact absurd hge (not_le_of_lt h2)
    rw [if_neg hc]

/-- Witness for C3 at a concrete input: a single keyframe at the origin,
a new pose with both deltas strictly below the thresholds — no keyframe
is created. -/
theorem updateKeyframes_spec_witness :
    (updateKeyframes [⟨⟨⟨0, 0, 0⟩, ⟨1, 0, 0, 0⟩⟩, [], []⟩]
      ⟨⟨1, 0, 0⟩, ⟨1, 0, 0, 0⟩⟩ [] [] 4 (1 / 2)).1
      = [⟨⟨⟨0, 0, 0⟩, ⟨1, 0, 0, 0⟩⟩, [], []⟩] := by
  have h := updateKeyframes_spec [⟨⟨⟨0, 0, 0⟩, ⟨1, 0, 0, 0⟩⟩, [], []⟩]
    ⟨⟨1, 0, 0⟩, ⟨1, 0, 0, 0⟩⟩ [] [] 4 (1 / 2)
    ⟨⟨⟨0, 0, 0⟩, ⟨1, 0, 0, 0⟩⟩, [], []⟩ rfl
  exact h.2.2.2 ⟨by norm_num [dist2], by norm_num [rotDist, qabs]⟩

/-! ## C4: minimum-point-count gate of the registration stages

Modelled from the spec: both registration stages (S2S and S2M, the
header's `propagateS2S` / `propagateS2M` path with `gicp_min_num_points_`)
use the same gate — if either the source or target cloud has fewer points
than the configured minimum, the stage is skipped (flag) and the initial
guess is passed through unchanged; graceful degradation, not failure.
The method bodies are not in the sources; the iterative GICP alignment
itself is abstracted as the `align` argument. -/

/-- Vector addition. -/
def Vec3.add (a b : Vec3) : Vec3 := ⟨a.x + b.x, a.y + b.y, a.z + b.z⟩

/-- Quaternion conjugate. -/
def Quat.conj (q : Quat) : Quat := ⟨q.w, -q.x, -q.y, -q.z⟩

/-- Rotate a vector by a quaternion (sandwich product, vector part). -/
def Quat.rotate (q : Quat) (v : Vec3) : Vec3 :=
  let r := (q.mul ⟨0, v.x, v.y, v.z⟩).mul q.conj
  ⟨r.x, r.y, r.z⟩

/-- Rigid-transform composition of poses. -/
def Pose.comp (p1 p2 : Pose) : Pose :=
  ⟨p1.pos.add (p1.ori.rotate p2.pos), p1.ori.mul p2.ori⟩

/-- The identity pose. -/
def Pose.one : Pose := ⟨⟨0, 0, 0⟩, Quat.one⟩

/-- A registration parameter bundle, mirroring the header's `gicps2s_*` /
`gicps2m_*` parameter block. -/
structure GicpParams where
  k_correspondences_ : ℕ
  max_corr_dist_ : ℚ
  max_iter_ : ℕ
  transformation_ep_ : ℚ
  euclidean_fitness_ep_ : ℚ
  ransac_iter_ : ℕ
  ransac_inlier_thresh_ : ℚ
  deriving DecidableEq, Repr

/-- Modelled from the spec: a registration stage with its
minimum-point-count gate.  Returns the stage's output transform together
with the skipped-stage flag. -/
def registrationStage (minPts : ℕ) (align : PointCloud → PointCloud → Pose → Pose)
    (src tgt : PointCloud) (guess : Pose) : Pose × Bool :=
  if src.length < minPts ∨ tgt.length < minPts then (guess, true)
  else (align src tgt guess, false)

/-- Modelled from the spec: the S2S stage (header: `propagateS2S`),
gated by `gicp_min_num_points_`. -/
def propagateS2S (minPts : ℕ) (align : PointCloud → PointCloud → Pose → Pose)
    (src tgt : PointCloud) (guess : Pose) : Pose × Bool :=
  registrationStage minPts align src tgt guess

/-- Modelled from the spec: the S2M stage (header: `propagateS2M`),
gated by `gicp_min_num_points_`. -/
def propagateS2M (minPts : ℕ) (align : PointCloud → PointCloud → Pose → Pose)
    (src tgt : PointCloud) (guess : Pose) : Pose × Bool :=
  registrationStage minPts align src tgt guess

/-- C4: for each registration stage (S2S and S2M), whatever the inner
alignment would compute, if the source or target cloud has fewer points
than the configured minimum the stage performs no registration: its output
transform equals the initial guess unchanged and the skipped flag is set —
the stage still returns a value (graceful degradation, no abort). -/
theorem registrationStage_insufficientPoints (minPts : ℕ)
    (a2s a2m : PointCloud → PointCloud → Pose → Pose)
    (src tgt : PointCloud) (guess : Pose)
    (h : src.length < minPts ∨ tgt.length < minPts) :
    propagateS2S minPts a2s src tgt guess = (guess, true) ∧
    propagateS2M minPts a2m src tgt guess = (guess, true) := by
  unfold propagateS2S propagateS2M registrationStage
  rw [if_pos h, if_pos h]
  exact ⟨rfl, rfl⟩

/-- Witness for C4 at a concrete input: a 1-point source against a 4-point
target with minimum 3, under an alignment that would move the pose if it
ran — both stages pass the guess through with the skipped flag. -/
theorem registrationStage_insufficientPoints_witness :
    propagateS2S 3 (fun _ _ _ => ⟨⟨5, 5, 5⟩, Quat.one⟩)
      [⟨0, 0, 0⟩] [⟨0, 0, 0⟩, ⟨1, 0, 0⟩, ⟨2, 0, 0⟩, ⟨3, 0, 0⟩] Pose.one
      = (Pose.one, true) ∧
    propagateS2M 3 (fun _ _ _ => ⟨⟨5, 5, 5⟩, Quat.one⟩)
      [⟨0, 0, 0⟩] [⟨0, 0, 0⟩, ⟨1, 0, 0⟩, ⟨2, 0, 0⟩, ⟨3, 0, 0⟩] Pose.one
      = (Pose.one, true) :=
  registrationStage_insufficientPoints 3 _ _ _ _ _ (Or.inl (by decide))

/-! ## C2: the trajectory is append-only and counts processed scans

Modelled from the spec (§4.7 orchestration, `getNextPose` and the header's
`trajectory` member): each scan drives exactly one pass
S2S → S2M → keyframe maintenance, and the S2M output becomes the new
global pose appended to the trajectory. -/

/-- The pipeline state carried across per-scan cycles (the relevant
members of `OdomNode`). -/
structure OdomState where
  trajectory : List Pose
  prevScan : PointCloud
  submapCloud : PointCloud
  T_s2s : Pose
  pose : Pose
  keyframes : List Keyframe

/-- Modelled from the spec: one per-scan cycle (`getNextPose`): S2S
against the previous scan, S2M against the submap, append the refined
global pose to the trajectory, then keyframe maintenance. -/
def processScan (minPts : ℕ) (a2s a2m : PointCloud → PointCloud → Pose → Pose)
    (thd2 thr : ℚ) (st : OdomState) (scan : PointCloud) : OdomState :=
  let s2s := propagateS2S minPts a2s scan st.prevScan st.T_s2s
  let s2m := propagateS2M minPts a2m scan st.submapCloud (st.pose.comp s2s.1)
  let kfUpd := updateKeyframes st.keyframes s2m.1 scan [] thd2 thr
  { trajectory := st.trajectory ++ [s2m.1]
    prevScan := scan
    submapCloud := st.submapCloud
    T_s2s := s2s.1
    pose := s2m.1
    keyframes := kfUpd.1 }

/-- The pipeline run over a sequence of scans (cycles are strictly
sequential). -/
def runScans (minPts : ℕ) (a2s a2m : PointCloud → PointCloud → Pose → Pose)
    (thd2 thr : ℚ) (st : OdomState) (scans : List PointCloud) : OdomState :=
  scans.foldl (processScan minPts a2s a2m thd2 thr) st

/-- The initial pipeline state: empty trajectory, no keyframes, identity
pose. -/
def initState : OdomState :=
  ⟨[], [], [], Pose.one, Pose.one, []⟩

theorem runScans_trajectory_aux (minPts : ℕ)
    (a2s a2m : PointCloud → PointCloud → Pose → Pose) (thd2 thr : ℚ)
    (scans : List PointCloud) (st : OdomState) :
    ∃ t, (runScans minPts a2s a2m thd2 thr st scans).trajectory
        = st.trajectory ++ t ∧ t.length = scans.length := by
  induction scans generalizing st with
  | nil => exact ⟨[], by simp [runScans]⟩
  | cons s ss ih =>
    obtain ⟨t, ht, hlen⟩ := ih (processScan minPts a2s a2m thd2 thr st s)
    refine ⟨(processScan minPts a2s a2m thd2 thr st s).pose :: t, ?_, by simp [hlen]⟩
    have : runScans minPts a2s a2m thd2 thr st (s :: ss)
        = runScans minPts a2s a2m thd2 thr (processScan minPts a2s a2m thd2 thr st s) ss := rfl
    rw [this, ht]
    simp [processScan]

/-- C2: after every per-scan run the trajectory length equals the previous
length plus the number of scans processed (so, starting from the empty
initial trajectory, it equals the total count of processed scans), the
length never decreases, and the trajectory is append-only: the previous
trajectory is a prefix of the new one, so previously appended poses are
never modified or removed. -/
theorem trajectory_appendOnly_counts (minPts : ℕ)
    (a2s a2m : PointCloud → PointCloud → Pose → Pose) (thd2 thr : ℚ)
    (st : OdomState) (scans : List PointCloud) :
    (runScans minPts a2s a2m thd2 thr st scans).trajectory.length
      = st.trajectory.length + scans.length ∧
    st.trajectory.length ≤ (runScans minPts a2s a2m thd2 thr st scans).trajectory.length ∧
    (∃ t, (runScans minPts a2s a2m thd2 thr st scans).trajectory = st.trajectory ++ t) ∧
    (runScans minPts a2s a2m thd2 thr initState scans).trajectory.length = scans.length := by
  obtain ⟨t, ht, hlen⟩ := runScans_trajectory_aux minPts a2s a2m thd2 thr scans st
  obtain ⟨t0, ht0, hlen0⟩ := runScans_trajectory_aux minPts a2s a2m thd2 thr scans initState
  refine ⟨?_, ?_, ⟨t, ht⟩, ?_⟩
  · rw [ht]; simp [hlen]
  · rw [ht]; simp
  · rw [ht0]; simpa [initState] using hlen0

/-! ## C5: `integrateIMU` — identity on stale data, bias-corrected otherwise

Modelled from the spec: `integrateIMU(t0, t1)` (declared in the header,
body not in the sources) returns a bias-corrected incremental rotation by
integrating the angular-velocity samples of the `imu_buffer` whose
timestamps fall in `[t0, t1]`; if no samples cover the interval it returns
the identity rotation (non-fatal). -/

/-- Vector subtraction. -/
def Vec3.sub (a b : Vec3) : Vec3 := ⟨a.x - b.x, a.y - b.y, a.z - b.z⟩

/-- Scalar multiple of a vector. -/
def Vec3.smul (c : ℚ) (v : Vec3) : Vec3 := ⟨c * v.x, c * v.y, c * v.z⟩

/-- An IMU sample, mirroring the header's `ImuMeas` struct. -/
structure ImuMeas where
  stamp : ℚ
  ang_vel : Vec3
  lin_accel : Vec3
  deriving DecidableEq, Repr

/-- The IMU bias, mirroring the header's `ImuBias` struct. -/
structure ImuBias where
  gyro : Vec3
  accel : Vec3
  deriving DecidableEq, Repr

/-- The buffer samples whose timestamps fall in `[t0, t1]`. -/
def samplesIn (buf : List ImuMeas) (t0 t1 : ℚ) : List ImuMeas :=
  buf.filter (fun m => decide (t0 ≤ m.stamp) && decide (m.stamp ≤ t1))

/-- One first-order quaternion integration step for an angular velocity
`w` over a time increment `dt`. -/
def gyroStep (q : Quat) (w : Vec3) (dt : ℚ) : Quat :=
  q.mul ⟨1, w.x * dt / 2, w.y * dt / 2, w.z * dt / 2⟩

/-- Integration of a list of (already bias-corrected) samples starting
from the identity rotation at time `tprev`. -/
def integrateSamples (ms : List ImuMeas) (tprev : ℚ) : Quat :=
  (ms.foldl (fun acc m => (gyroStep acc.1 m.ang_vel (m.stamp - acc.2), m.stamp))
    (Quat.one, tprev)).1

/-- Subtract the calibrated bias from a sample. -/
def biasCorrect (b : ImuBias) (m : ImuMeas) : ImuMeas :=
  ⟨m.stamp, m.ang_vel.sub b.gyro, m.lin_accel.sub b.accel⟩

/-- Modelled from the spec: `integrateIMU(t0, t1)` — integrate the
bias-corrected angular velocities of the buffer samples with timestamps in
`[t0, t1]`, starting from the identity rotation. -/
def integrateIMU (buf : List ImuMeas) (b : ImuBias) (t0 t1 : ℚ) : Quat :=
  ((samplesIn buf t0 t1).foldl
    (fun acc m => (gyroStep acc.1 (m.ang_vel.sub b.gyro) (m.stamp - acc.2), m.stamp))
    (Quat.one, t0)).1

theorem integrate_fold_map (b : ImuBias) (ms : List ImuMeas) (q : Quat) (tp : ℚ) :
    ms.foldl (fun acc m => (gyroStep acc.1 (m.ang_vel.sub b.gyro) (m.stamp - acc.2), m.stamp))
      (q, tp)
    = (ms.map (biasCorrect b)).foldl
        (fun acc m => (gyroStep acc.1 m.ang_vel (m.stamp - acc.2), m.stamp)) (q, tp) := by
  induction ms generalizing q tp with
  | nil => rfl
  | cons m rest ih => simpa [biasCorrect] using ih _ _

/-- C5: if no IMU sample in the buffer has a timestamp in `[t0, t1]`,
`integrateIMU` returns the identity rotation (a value, so the pipeline
continues); otherwise its result is exactly the integration of the
bias-corrected angular velocities of the samples with timestamps in
`[t0, t1]` (every sample it uses lies in the interval, and samples outside
the interval are ignored). -/
theorem integrateIMU_spec (buf : List ImuMeas) (b : ImuBias) (t0 t1 : ℚ) :
    (samplesIn buf t0 t1 = [] → integrateIMU buf b t0 t1 = Quat.one) ∧
    integrateIMU buf b t0 t1 = integrateSamples ((samplesIn buf t0 t1).map (biasCorrect b)) t0 ∧
    (∀ m ∈ samplesIn buf t0 t1, t0 ≤ m.stamp ∧ m.stamp ≤ t1) ∧
    integrateIMU buf b t0 t1 = integrateIMU (samplesIn buf t0 t1) b t0 t1 := by
  refine ⟨?_, ?_, ?_, ?_⟩
  · intro h; unfold integrateIMU; rw [h]; rfl
  · unfold integrateIMU integrateSamples
    rw [integrate_fold_map]
  · intro m hm
    unfold samplesIn at hm
    have := (List.mem_filter.mp hm).2
    simpa [decide_eq_true_eq] using this
  · unfold integrateIMU
    have : samplesIn (samplesIn buf t0 t1) t0 t1 = samplesIn buf t0 t1 := by
      apply List.filter_eq_self.mpr
      intro m hm
      unfold samplesIn at hm
      exact (List.mem_filter.mp hm).2
    rw [this]

/-- Witness for C5 at a concrete input: a buffer whose only sample
(timestamp 5) does not cover the interval `[0, 1]` — the result is the
identity rotation. -/
theorem integrateIMU_spec_witness :
    integrateIMU [⟨5, ⟨1, 2, 3⟩, ⟨0, 0, 0⟩⟩] ⟨⟨0, 0, 0⟩, ⟨0, 0, 0⟩⟩ 0 1 = Quat.one :=
  (integrateIMU_spec [⟨5, ⟨1, 2, 3⟩, ⟨0, 0, 0⟩⟩] ⟨⟨0, 0, 0⟩, ⟨0, 0, 0⟩⟩ 0 1).1 (by decide)

/-! ## C7: the IMU bias is write-once

Modelled from the spec: during the configured calibration interval
(`imu_calib_time_`) the IMU callback accumulates gyro/accel samples; once
the interval elapses it computes `imu_bias` as their mean and sets
`imu_calibrated` — a one-time, irreversible transition, after which
neither the bias nor the flag ever changes.  The callback body is not in
the sources. -/

/-- The calibration-relevant state of the IMU integrator (the header's
`imu_calibrated`, `imu_bias` members plus the accumulation window). -/
structure ImuCalibState where
  imu_calibrated : Bool
  imu_bias : ImuBias
  gyroSum : Vec3
  accelSum : Vec3
  count : ℕ
  deriving DecidableEq, Repr

/-- Modelled from the spec: processing one IMU sample during the session —
accumulate while the calibration interval has not elapsed, freeze the mean
as the bias when it elapses, and change nothing once calibrated. -/
def imuCalibStep (imu_calib_time_ first_imu_time : ℚ) (s : ImuCalibState)
    (m : ImuMeas) : ImuCalibState :=
  if s.imu_calibrated then s
  else if m.stamp - first_imu_time < imu_calib_time_ then
    { s with gyroSum := s.gyroSum.add m.ang_vel,
             accelSum := s.accelSum.add m.lin_accel,
             count := s.count + 1 }
  else
    { s with imu_calibrated := true,
             imu_bias := ⟨Vec3.smul (1 / (s.count : ℚ)) s.gyroSum,
                          Vec3.smul (1 / (s.count : ℚ)) s.accelSum⟩ }

theorem imuCalibStep_frozen (ct ft : ℚ) (s : ImuCalibState) (m : ImuMeas)
    (h : s.imu_calibrated = true) : imuCalibStep ct ft s m = s := by
  unfold imuCalibStep; rw [h]; rfl

/-- C7: the bias transition happens exactly once — while uncalibrated, a
sample past the calibration interval freezes the bias as the mean of the
accumulated samples and raises the flag; once the flag is raised, any
further sample stream leaves both the bias and the flag (indeed the whole
state) unchanged. -/
theorem imuBias_writeOnce (ct ft : ℚ) (s : ImuCalibState) (ms : List ImuMeas) :
    (s.imu_calibrated = true →
      (ms.foldl (imuCalibStep ct ft) s).imu_bias = s.imu_bias ∧
      (ms.foldl (imuCalibStep ct ft) s).imu_calibrated = true) ∧
    (∀ m : ImuMeas, s.imu_calibrated = false → ct ≤ m.stamp - ft →
      (imuCalibStep ct ft s m).imu_bias
          = ⟨Vec3.smul (1 / (s.count : ℚ)) s.gyroSum,
             Vec3.smul (1 / (s.count : ℚ)) s.accelSum⟩ ∧
      (imuCalibStep ct ft s m).imu_calibrated = true) := by
  constructor
  · intro h
    have hfix : ms.foldl (imuCalibStep ct ft) s = s := by
      induction ms with
      | nil => rfl
      | cons m rest ih => rw [List.foldl_cons, imuCalibStep_frozen ct ft s m h, ih]
    rw [hfix]; exact ⟨rfl, h⟩
  · intro m h hpast
    unfold imuCalibStep
    rw [h]
    rw [if_neg (by simp), if_neg (not_lt_of_le hpast)]
    exact ⟨rfl, rfl⟩

/-- Witness for C7 at a concrete input: a calibrated state keeps its bias
and flag over further samples, and an uncalibrated state past the
calibration window freezes the mean as the bias. -/
theorem imuBias_writeOnce_witness :
    (([⟨7, ⟨1, 1, 1⟩, ⟨2, 2, 2⟩⟩] : List ImuMeas).foldl (imuCalibStep 3 0)
      ⟨true, ⟨⟨1, 0, 0⟩, ⟨0, 1, 0⟩⟩, ⟨0, 0, 0⟩, ⟨0, 0, 0⟩, 0⟩).imu_bias
      = ⟨⟨1, 0, 0⟩, ⟨0, 1, 0⟩⟩ ∧
    (imuCalibStep 3 0 ⟨false, ⟨⟨0, 0, 0⟩, ⟨0, 0, 0⟩⟩, ⟨2, 4, 6⟩, ⟨2, 0, 0⟩, 2⟩
      ⟨7, ⟨1, 1, 1⟩, ⟨2, 2, 2⟩⟩).imu_calibrated = true := by
  have h1 := (imuBias_writeOnce 3 0
    ⟨true, ⟨⟨1, 0, 0⟩, ⟨0, 1, 0⟩⟩, ⟨0, 0, 0⟩, ⟨0, 0, 0⟩, 0⟩
    [⟨7, ⟨1, 1, 1⟩, ⟨2, 2, 2⟩⟩]).1 rfl
  have h2 := (imuBias_writeOnce 3 0
    ⟨false, ⟨⟨0, 0, 0⟩, ⟨0, 0, 0⟩⟩, ⟨2, 4, 6⟩, ⟨2, 0, 0⟩, 2⟩
    ([] : List ImuMeas)).2 ⟨7, ⟨1, 1, 1⟩, ⟨2, 2, 2⟩⟩ rfl (by norm_num)
  exact ⟨h1.1, h2.2⟩

/-! ## C9: `getSubmapKeyframes` — deterministic submap member selection

Modelled from the spec: `getSubmapKeyframes()` (declared in the header,
body not in the sources) selects the working keyframe index set for the
next S2M target by unioning three sources, each deduplicated into a single
membership set: the `submap_knn_` nearest keyframes to the current pose,
`submap_kcv_` convex-hull boundary keyframes, and `submap_kcc_`
concave-hull boundary keyframes.  The hull boundary index lists
(`keyframe_convex` / `keyframe_concave`, produced by `computeConvexHull` /
`computeConcaveHull` from the fixed keyframe set) are taken as inputs. -/

/-- A default keyframe used for out-of-range index lookups. -/
def defaultKf : Keyframe := ⟨Pose.one, [], []⟩

/-- The distances from a query position to every keyframe. -/
def kfDists (kfs : List Keyframe) (p : Vec3) : List ℚ :=
  kfs.map (fun kf => dist2 kf.pose.pos p)

/-- The `knn` nearest keyframe indices to the query position. -/
def knnIndices (kfs : List Keyframe) (p : Vec3) (knn : ℕ) : List ℕ :=
  pushSubmapIndices (kfDists kfs p) knn (List.range kfs.length)

/-- The `k` nearest of the given hull-boundary keyframe indices. -/
def hullIndices (kfs : List Keyframe) (p : Vec3) (k : ℕ) (hull : List ℕ) : List ℕ :=
  pushSubmapIndices (hull.map (fun i => dist2 (kfs.getD i defaultKf).pose.pos p)) k hull

/-- Modelled from the spec: `getSubmapKeyframes()` — the deduplicated
union of the K nearest keyframes, the selected convex-hull boundary
keyframes and the selected concave-hull boundary keyframes. -/
def getSubmapKeyframes (kfs : List Keyframe) (p : Vec3) (submap_knn_ submap_kcv_ submap_kcc_ : ℕ)
    (keyframe_convex keyframe_concave : List ℕ) : List ℕ :=
  (knnIndices kfs p submap_knn_ ++ hullIndices kfs p submap_kcv_ keyframe_convex
    ++ hullIndices kfs p submap_kcc_ keyframe_concave).dedup

/-- The cloud aggregated from the keyframes of a member index set. -/
def buildSubmapCloud (kfs : List Keyframe) (idx : Finset ℕ) : PointCloud :=
  (idx.sort (· ≤ ·)).foldr (fun i acc => (kfs.getD i defaultKf).cloud ++ acc) []

/-- The normals aggregated from the keyframes of a member index set. -/
def buildSubmapNormals (kfs : List Keyframe) (idx : Finset ℕ) : List Vec3 :=
  (idx.sort (· ≤ ·)).foldr (fun i acc => (kfs.getD i defaultKf).normals ++ acc) []

/-- C9: submap member selection is deterministic — for a fixed keyframe
sequence and query pose (hence fixed hull boundary lists), two invocations
of `getSubmapKeyframes` produce identical member index lists and identical
resulting submap content; the produced list is duplicate-free and its
membership set is exactly the union of the three sources. -/
theorem getSubmapKeyframes_deterministic (kfs kfs' : List Keyframe) (p p' : Vec3)
    (knn kcv kcc : ℕ) (cvx ccv : List ℕ) (h1 : kfs = kfs') (h2 : p = p') :
    getSubmapKeyframes kfs p knn kcv kcc cvx ccv
        = getSubmapKeyframes kfs' p' knn kcv kcc cvx ccv ∧
    buildSubmapCloud kfs (getSubmapKeyframes kfs p knn kcv kcc cvx ccv).toFinset
        = buildSubmapCloud kfs' (getSubmapKeyframes kfs' p' knn kcv kcc cvx ccv).toFinset ∧
    (getSubmapKeyframes kfs p knn kcv kcc cvx ccv).Nodup ∧
    (getSubmapKeyframes kfs p knn kcv kcc cvx ccv).toFinset
        = (knnIndices kfs p knn).toFinset ∪ (hullIndices kfs p kcv cvx).toFinset
          ∪ (hullIndices kfs p kcc ccv).toFinset := by
  subst h1; subst h2
  refine ⟨rfl, rfl, List.nodup_dedup _, ?_⟩
  ext a
  simp [getSubmapKeyframes, List.mem_toFinset, List.mem_dedup, List.mem_append, or_assoc]

/-- Witness for C9 at a concrete input: two keyframes, query at the
origin, one hull index each. -/
theorem getSubmapKeyframes_deterministic_witness :
    getSubmapKeyframes [⟨Pose.one, [⟨1, 0, 0⟩], []⟩, ⟨⟨⟨3, 0, 0⟩, Quat.one⟩, [⟨4, 0, 0⟩], []⟩]
        ⟨0, 0, 0⟩ 1 1 1 [1] [0]
      = getSubmapKeyframes [⟨Pose.one, [⟨1, 0, 0⟩], []⟩, ⟨⟨⟨3, 0, 0⟩, Quat.one⟩, [⟨4, 0, 0⟩], []⟩]
        ⟨0, 0, 0⟩ 1 1 1 [1] [0] ∧
    (getSubmapKeyframes [⟨Pose.one, [⟨1, 0, 0⟩], []⟩, ⟨⟨⟨3, 0, 0⟩, Quat.one⟩, [⟨4, 0, 0⟩], []⟩]
        ⟨0, 0, 0⟩ 1 1 1 [1] [0]).Nodup := by
  have h := getSubmapKeyframes_deterministic
    [⟨Pose.one, [⟨1, 0, 0⟩], []⟩, ⟨⟨⟨3, 0, 0⟩, Quat.one⟩, [⟨4, 0, 0⟩], []⟩]
    [⟨Pose.one, [⟨1, 0, 0⟩], []⟩, ⟨⟨⟨3, 0, 0⟩, Quat.one⟩, [⟨4, 0, 0⟩], []⟩]
    ⟨0, 0, 0⟩ ⟨0, 0, 0⟩ 1 1 1 [1] [0] rfl rfl
  exact ⟨h.1, h.2.2.1⟩

/-! ## C6: submap rebuild exactly on member-set change

Modelled from the spec: the submap (header members `submap_cloud`,
`submap_normals`, `submap_kf_idx_curr` / `submap_kf_idx_prev`,
`submap_hasChanged`) is rebuilt in a cycle if and only if the newly
computed keyframe member index set differs from the previous cycle's set;
when the member set is unchanged the cached submap cloud and normals are
reused unchanged. -/

/-- The submap cache carried across cycles. -/
structure SubmapState where
  submap_kf_idx_prev : Finset ℕ
  submap_cloud : PointCloud
  submap_normals : List Vec3
  deriving DecidableEq

/-- The member index set computed by the current cycle's selection. -/
def submapMembers (kfs : List Keyframe) (p : Vec3) (knn kcv kcc : ℕ)
    (cvx ccv : List ℕ) : Finset ℕ :=
  (getSubmapKeyframes kfs p knn kcv kcc cvx ccv).toFinset

/-- Modelled from the spec: one submap maintenance cycle — recompute the
member set; rebuild the cloud and normals only when it differs from the
previous cycle's set, otherwise reuse the cached content.  The returned
flag is `submap_hasChanged`. -/
def submapCycle (kfs : List Keyframe) (p : Vec3) (knn kcv kcc : ℕ)
    (cvx ccv : List ℕ) (s : SubmapState) : SubmapState × Bool :=
  let curr := submapMembers kfs p knn kcv kcc cvx ccv
  if curr = s.submap_kf_idx_prev then
    (⟨curr, s.submap_cloud, s.submap_normals⟩, false)
  else
    (⟨curr, buildSubmapCloud kfs curr, buildSubmapNormals kfs curr⟩, true)

/-- C6: the submap is rebuilt in a cycle if and only if the newly computed
member index set differs from the previous cycle's set (equivalently, the
symmetric difference is non-empty); when the set is unchanged the cached
cloud and normals are reused verbatim; and running the cycle a second time
on the resulting state (same keyframes and pose) performs no rebuild and
leaves the submap content identical — idempotence. -/
theorem submapCycle_rebuild_iff (kfs : List Keyframe) (p : Vec3) (knn kcv kcc : ℕ)
    (cvx ccv : List ℕ) (s : SubmapState) :
    ((submapCycle kfs p knn kcv kcc cvx ccv s).2 = true ↔
      (symmDiff (submapMembers kfs p knn kcv kcc cvx ccv) s.submap_kf_idx_prev).Nonempty) ∧
    ((submapCycle kfs p knn kcv kcc cvx ccv s).2 = false →
      (submapCycle kfs p knn kcv kcc cvx ccv s).1.submap_cloud = s.submap_cloud ∧
      (submapCycle kfs p knn kcv kcc cvx ccv s).1.submap_normals = s.submap_normals) ∧
    (submapCycle kfs p knn kcv kcc cvx ccv
      (submapCycle kfs p knn kcv kcc cvx ccv s).1).2 = false ∧
    (submapCycle kfs p knn kcv kcc cvx ccv
        (submapCycle kfs p knn kcv kcc cvx ccv s).1).1.submap_cloud
      = (submapCycle kfs p knn kcv kcc cvx ccv s).1.submap_cloud ∧
    (submapCycle kfs p knn kcv kcc cvx ccv
        (submapCycle kfs p knn kcv kcc cvx ccv s).1).1.submap_normals
      = (submapCycle kfs p knn kcv kcc cvx ccv s).1.submap_normals := by
  by_cases hc : submapMembers kfs p knn kcv kcc cvx ccv = s.submap_kf_idx_prev
  · have e : submapCycle kfs p knn kcv kcc cvx ccv s
        = (⟨submapMembers kfs p knn kcv kcc cvx ccv, s.submap_cloud, s.submap_normals⟩, false) := by
      unfold submapCycle; rw [if_pos hc]
    have e2 : submapCycle kfs p knn kcv kcc cvx ccv
        (⟨submapMembers kfs p knn kcv kcc cvx ccv, s.submap_cloud, s.submap_normals⟩ : SubmapState)
        = (⟨submapMembers kfs p knn kcv kcc cvx ccv, s.submap_cloud, s.submap_normals⟩, false) := by
      unfold submapCycle; rw [if_pos rfl]
    rw [e]
    refine ⟨?_, fun _ => ⟨rfl, rfl⟩, by rw [e2], by rw [e2], by rw [e2]⟩
    simp [Finset.symmDiff_nonempty, hc]
  · have e : submapCycle kfs p knn kcv kcc cvx ccv s
        = (⟨submapMembers kfs p knn kcv kcc cvx ccv,
            buildSubmapCloud kfs (submapMembers kfs p knn kcv kcc cvx ccv),
            buildSubmapNormals kfs (submapMembers kfs p knn kcv kcc cvx ccv)⟩, true) := by
      unfold submapCycle; rw [if_neg hc]
    have e2 : submapCycle kfs p knn kcv kcc cvx ccv
        (⟨submapMembers kfs p knn kcv kcc cvx ccv,
          buildSubmapCloud kfs (submapMembers kfs p knn kcv kcc cvx ccv),
          buildSubmapNormals kfs (submapMembers kfs p knn kcv kcc cvx ccv)⟩ : SubmapState)
        = (⟨submapMembers kfs p knn kcv kcc cvx ccv,
            buildSubmapCloud kfs (submapMembers kfs p knn kcv kcc cvx ccv),
            buildSubmapNormals kfs (submapMembers kfs p knn kcv kcc cvx ccv)⟩, false) := by
      unfold submapCycle; rw [if_pos rfl]
    rw [e]
    refine ⟨?_, ?_, by rw [e2], by rw [e2], by rw [e2]⟩
    · simp [Finset.symmDiff_nonempty, hc]
    · intro hff; exact absurd hff (by simp)

/-- Witness for C6 at a concrete input: an empty keyframe set with an
empty previous member set — the member set is unchanged, no rebuild
happens and the cached submap content survives. -/
theorem submapCycle_rebuild_iff_witness :
    (submapCycle [] ⟨0, 0, 0⟩ 2 1 1 [] [] ⟨∅, [⟨9, 9, 9⟩], []⟩).2 = false ∧
    (submapCycle [] ⟨0, 0, 0⟩ 2 1 1 [] [] ⟨∅, [⟨9, 9, 9⟩], []⟩).1.submap_cloud
      = [⟨9, 9, 9⟩] := by
  have h := submapCycle_rebuild_iff [] ⟨0, 0, 0⟩ 2 1 1 [] [] ⟨∅, [⟨9, 9, 9⟩], []⟩
  have hflag : (submapCycle [] ⟨0, 0, 0⟩ 2 1 1 [] [] ⟨∅, [⟨9, 9, 9⟩], []⟩).2 = false := by
    rcases Bool.eq_false_or_eq_true (submapCycle [] ⟨0, 0, 0⟩ 2 1 1 [] [] ⟨∅, [⟨9, 9, 9⟩], []⟩).2
      with hb | hb
    · exact absurd ((h.1.mp hb).ne_empty) (by decide)
    · exact hb
  exact ⟨hflag, (h.2.1 hflag).1⟩

/-! ## C8: `setAdaptiveParams` is the identity when disabled

Modelled from the spec: `setAdaptiveParams()` (declared in the header,
body not in the sources), when the `adaptive_params_use_` toggle is
enabled, recomputes the registration parameter bundles as a clamped
function of the sliding-window average of spaciousness; when the toggle is
disabled it mutates nothing. -/

/-- The two registration parameter bundles plus voxel resolutions — the
per-frame mutable registration configuration. -/
structure ParamBundles where
  gicps2s : GicpParams
  gicps2m : GicpParams
  vf_scan_res_ : ℚ
  vf_submap_res_ : ℚ
  deriving DecidableEq, Repr

/-- Clamp a value into `[lo, hi]`. -/
def qclamp (lo hi x : ℚ) : ℚ := if x < lo then lo else if hi < x then hi else x

/-- The average of the most recent `w` entries of the spaciousness
history. -/
def windowAvg (hist : List ℚ) (w : ℕ) : ℚ :=
  (hist.take w).foldl (· + ·) 0 / ((hist.take w).length : ℚ)

/-- Modelled from the spec: `setAdaptiveParams()` — when enabled, set both
bundles' max correspondence distance to the clamped sliding-window average
of spaciousness; when disabled, change nothing. -/
def setAdaptiveParams (adaptive_params_use_ : Bool) (spaciousness : List ℚ)
    (lo hi : ℚ) (p : ParamBundles) : ParamBundles :=
  if adaptive_params_use_ then
    let d := qclamp lo hi (windowAvg spaciousness 10)
    { p with gicps2s := { p.gicps2s with max_corr_dist_ := d },
             gicps2m := { p.gicps2m with max_corr_dist_ := d } }
  else p

/-- C8: with the adaptive-parameters toggle disabled, `setAdaptiveParams`
mutates no parameter — a single call is the identity on the parameter
bundles for every spaciousness history, and across any sequence of frames
with arbitrarily varying spaciousness values the bundles stay identical to
their initial value. -/
theorem setAdaptiveParams_disabled (spaciousness : List ℚ) (lo hi : ℚ)
    (p : ParamBundles) (frames : List (List ℚ)) :
    setAdaptiveParams false spaciousness lo hi p = p ∧
    frames.foldl (fun q h => setAdaptiveParams false h lo hi q) p = p := by
  refine ⟨rfl, ?_⟩
  induction frames with
  | nil => rfl
  | cons f rest ih => exact ih

/-! ## C10: ground-plane correction warm start is the zero correction

From the source (`odom.h`, in-class member initializers):
`double para_tz[1] = {0};`, `double para_tz_pre = 0;`,
`double para_q[4] = {0, 0, 0, 1};` (Eigen coefficient order x, y, z, w).
The skipped-fit carry-forward path of the refiner is modelled from the
spec (`GroundFitInsufficientPoints`: too few ground candidates → previous
correction carried forward unchanged). -/

/-- The header initializer `double para_tz[1] = {0}` — the ground height
offset. -/
def para_tz : List ℚ := [0]

/-- The header initializer `double para_tz_pre = 0` — the previous cycle's
height offset. -/
def para_tz_pre : ℚ := 0

/-- The header initializer `double para_q[4] = {0, 0, 0, 1}` — the ground
orientation-correction quaternion, coefficients in (x, y, z, w) order. -/
def para_q : List ℚ := [0, 0, 0, 1]

/-- The ground correction state threaded between cycles. -/
structure GroundCorrection where
  tz : ℚ
  tz_pre : ℚ
  qx : ℚ
  qy : ℚ
  qz : ℚ
  qw : ℚ
  deriving DecidableEq, Repr

/-- The ground correction as first constructed, from the header's member
initializers. -/
def groundCorrectionStart : GroundCorrection :=
  ⟨para_tz.getD 0 1, para_tz_pre,
   para_q.getD 0 1, para_q.getD 1 1, para_q.getD 2 1, para_q.getD 3 0⟩

/-- Modelled from the spec: one ground-plane refinement cycle — if fewer
ground candidates than the minimum are found, the fit is skipped and the
previous correction is carried forward unchanged; otherwise the iterative
fit (abstracted as `fit`) runs from the warm start. -/
def groundRefine (minGroundPts candidates : ℕ)
    (fit : GroundCorrection → GroundCorrection) (c : GroundCorrection) : GroundCorrection :=
  if candidates < minGroundPts then c else fit c

/-- C10: before the first ground-plane refinement, the warm start is the
zero/identity correction — the height offset array is initialized to
`{0}`, the previous height offset to `0`, and the orientation-correction
quaternion to `(0, 0, 0, 1)`, which is the identity quaternion — and a
first cycle whose ground fit is skipped carries exactly this zero
correction forward. -/
theorem ground_warmStart_zero :
    para_tz = [0] ∧ para_tz_pre = 0 ∧ para_q = [0, 0, 0, 1] ∧
    groundCorrectionStart.tz = 0 ∧ groundCorrectionStart.tz_pre = 0 ∧
    (⟨groundCorrectionStart.qw, groundCorrectionStart.qx,
      groundCorrectionStart.qy, groundCorrectionStart.qz⟩ : Quat) = Quat.one ∧
    (∀ (fit : GroundCorrection → GroundCorrection) (minp n : ℕ), n < minp →
      groundRefine minp n fit groundCorrectionStart = groundCorrectionStart) := by
  refine ⟨rfl, rfl, rfl, rfl, rfl, rfl, ?_⟩
  intro fit minp n h
  unfold groundRefine
  rw [if_pos h]

/-- Witness for C10 at a concrete input: a first cycle finding 0 ground
candidates against a minimum of 20, under a fit that would perturb the
correction if it ran — the zero correction is carried forward. -/
theorem ground_warmStart_zero_witness :
    groundRefine 20 0 (fun c => { c with tz := c.tz + 1 }) groundCorrectionStart
      = groundCorrectionStart :=
  ground_warmStart_zero.2.2.2.2.2.2 (fun c => { c with tz := c.tz + 1 }) 20 0 (by decide)

end TRLO
